import Mathlib

/-!
Shallow embedding of the nested tabular data model of `src/aipl/table.py`
(classes `Column`, `SubColumn`, `Row`, `LazyRow`, `Table`), together with
proofs of the frozen claims about it.

Modelling conventions:
* Python `None` is the value `Value.none`; a `dict.get` miss and a field
  stored as `None` are both `Value.none`, exactly as in the source.
* Python exceptions are `Except Err _`: `KeyError(k)` is
  `Err.keyNotFound k`, `IndexError` is `Err.indexErr`, `AssertionError` is
  `Err.assertErr`, and `TypeError`/`AttributeError` (calling a method on an
  object that lacks it) is `Err.typeErr`.
* Numeric scalars are modelled as `Int` (Python `int`/`float` both count as
  primitives in `table.py`; no claim distinguishes them).
* `str(v)` for a non-primitive, non-`Table` value is modelled by the
  constructor `OutVal.stringified v`, which records which value was
  rendered without computing Python's textual form.
* A `LazyRow` object is the pair of its `_table` and `_row`; a `LazyRow`
  stored inside a row field (the `__parent` back-link) is `Value.lazy t r`.
  Python's `Mapping.get` mixin on a `LazyRow` used as an intermediate
  object of a path walk is not modelled (no code path in the repository
  stores a `LazyRow` anywhere except under `__parent`, which no column key
  traverses); such an intermediate is mapped to `Err.typeErr` like every
  other non-`dict` object.
-/

namespace Aipl

/-- `CURRENT_COLNAME`: the reserved alias for the table's current column. -/
def CURRENT_COLNAME : String := "_"

/-- `Column.key` is either a single field identifier or a path of
identifiers (`isinstance(self.key, (list, tuple))` in the source). -/
inductive ColKey where
  | single : String → ColKey
  | path : List String → ColKey
deriving DecidableEq, Repr

/-- `Column` and its specialization `SubColumn` (which stores
`origcol` and whose `key` is the field holding the nested sub-row). -/
inductive Column where
  | base : (name : String) → (key : ColKey) → Column
  | sub : (key : String) → (origcol : Column) → Column
deriving DecidableEq, Repr

/-- `Column.name`.  In Python `Column.__init__` sets `self.name = name or key`
and `SubColumn.__init__` passes `origcol.name` as the name, so a `SubColumn`
falls back to its own key when the origin column's name is empty. -/
def Column.name : Column → String
  | .base n _ => n
  | .sub k o => if o.name = "" then k else o.name

/-- `Column(k)` with the name defaulted from the key
(`self.name = name or key`). -/
def Column.ofKey (k : String) : Column := .base k (.single k)

/-- Character-list prefix test. -/
def startsWithChars : List Char → List Char → Bool
  | [], _ => true
  | _ :: _, [] => false
  | c :: cs, d :: ds => c == d && startsWithChars cs ds

/-- `s.startswith(pre)`, computed on the underlying character lists (the
core `String.startsWith` does not reduce inside proofs). -/
def strStartsWith (s pre : String) : Bool := startsWithChars pre.data s.data

/-- `Column.hidden`: the name starts with a single underscore. -/
def Column.hidden (c : Column) : Bool := strStartsWith c.name "_"

/-- Python exceptions raised by `table.py`. -/
inductive Err where
  | keyNotFound : String → Err
  | typeErr : Err
  | indexErr : Err
  | assertErr : Err
deriving DecidableEq, Repr

mutual
/-- A Python value stored in a row field: `None`, a numeric or string
scalar, a nested `Table`, a nested plain mapping, or a `LazyRow`
(the `__parent` back-link). -/
inductive Value where
  | none : Value
  | int : Int → Value
  | str : String → Value
  | table : Table → Value
  | row : Row → Value
  | lazy : Table → Row → Value

/-- `Row`: a `dict` subclass — an ordered field mapping. -/
inductive Row where
  | mk : List (String × Value) → Row

/-- `Table.__init__` state: `rows`, `columns`, `scalar` (with `Value.none`
playing Python's `self.scalar = None` sentinel), and the optional `parent`
table. -/
inductive Table where
  | mk : (rows : List Row) → (columns : List Column) → (scalar : Value) →
      (parent : Option Table) → Table
end

/-- The field list of a row. -/
def Row.fields : Row → List (String × Value)
  | .mk fs => fs

/-- The `rows` attribute. -/
def Table.rows : Table → List Row
  | .mk rs _ _ _ => rs

/-- The `columns` attribute. -/
def Table.columns : Table → List Column
  | .mk _ cs _ _ => cs

/-- The `scalar` attribute (`Value.none` = Python `None` = unset). -/
def Table.scalar : Table → Value
  | .mk _ _ s _ => s

/-- The `parent` attribute. -/
def Table.parent : Table → Option Table
  | .mk _ _ _ p => p

/-- `dict.get` on a field list: first binding wins, `None` on a miss. -/
def fieldsGet : List (String × Value) → String → Value
  | [], _ => .none
  | (k₁, v) :: rest, k => if k₁ = k then v else fieldsGet rest k

/-- `row.get(k)`. -/
def Row.get (r : Row) (k : String) : Value := fieldsGet r.fields k

/-- `row[k]` (`dict.__getitem__`): `none` here means Python raised
`KeyError`. -/
def fieldsGetItem : List (String × Value) → String → Option Value
  | [], _ => Option.none
  | (k₁, v) :: rest, k => if k₁ = k then some v else fieldsGetItem rest k

/-- `row[k]`. -/
def Row.getItem (r : Row) (k : String) : Option Value := fieldsGetItem r.fields k

/-- One step `obj.get(k)` of the path walk in `Column.get_value`.
Only a plain mapping supports `.get`; any other intermediate object makes
Python raise (see the module comment for the `LazyRow` caveat). -/
def Value.get : Value → String → Except Err Value
  | .row r, k => .ok (r.get k)
  | _, _ => .error .typeErr

/-- `obj is None`. -/
def Value.isNone : Value → Bool
  | .none => true
  | _ => false

/-- The loop `for k in self.key: obj = obj.get(k); if obj is None: return
None` of `Column.get_value`, starting from `obj = row`. -/
def walkPath : Value → List String → Except Err Value
  | obj, [] => .ok obj
  | obj, k :: ks =>
    match obj.get k with
    | .error e => .error e
    | .ok v => if v.isNone then .ok .none else walkPath v ks

/-- `Column.get_value` / `SubColumn.get_value`.  A `SubColumn` indexes the
row with `row[self.key]` (raising `KeyError` when absent) and then delegates
to `origcol.get_value` on the nested sub-row. -/
def Column.get_value : Column → Row → Except Err Value
  | .base _ (.single k), r => .ok (r.get k)
  | .base _ (.path ks), r => walkPath (.row r) ks
  | .sub k orig, r =>
    match r.getItem k with
    | Option.none => .error (.keyNotFound k)
    | some (.row r₁) => orig.get_value r₁
    | some _ => .error .typeErr

/-- `Table.colnames`. -/
def Table.colnames (t : Table) : List String := t.columns.map Column.name

/-- `Table.get_column`: the reserved current-column alias resolves to
`columns[-1]` (an `IndexError` when there are no columns); otherwise the
first column with a matching name, or Python `None`. -/
def Table.get_column (t : Table) (name : String) : Except Err (Option Column) :=
  if name = CURRENT_COLNAME then
    match t.columns.getLast? with
    | some c => .ok (some c)
    | Option.none => .error .indexErr
  else .ok (t.columns.find? (fun c => c.name == name))

/-- The tail of `Table.add_column` after its asserts: re-adding an existing
name is a no-op, otherwise the column is appended. -/
def Table.appendColumnIfNew (t : Table) (col : Column) : Table :=
  if col.name ∈ t.colnames then t
  else .mk t.rows (t.columns ++ [col]) t.scalar t.parent

/-- `Table.add_column`: assert the name is not reserved, evaluate
`col.get_value(self.rows[0])` when rows exist (in Python this checks
against the `UNWORKING` sentinel, which no value of this model equals, but
the evaluation itself can raise), then append unless the name exists. -/
def Table.add_column (t : Table) (col : Column) : Except Err Table :=
  if strStartsWith col.name "__" then .error .assertErr
  else
    match t.rows with
    | [] => .ok (t.appendColumnIfNew col)
    | r₀ :: _ =>
      match col.get_value r₀ with
      | .error e => .error e
      | .ok _ => .ok (t.appendColumnIfNew col)

/-- The loop of `Table.add_new_columns`: one `add_column (Column k)` per
field key not starting with the reserved `__` prefix. -/
def addNewColumnsFrom : Table → List (String × Value) → Except Err Table
  | t, [] => .ok t
  | t, (k, _) :: rest =>
    if strStartsWith k "__" then addNewColumnsFrom t rest
    else
      match t.add_column (Column.ofKey k) with
      | .error e => .error e
      | .ok t₁ => addNewColumnsFrom t₁ rest

/-- `Table.add_new_columns`. -/
def Table.add_new_columns (t : Table) (r : Row) : Except Err Table :=
  addNewColumnsFrom t r.fields

/-- One constructor input of `Table.__init__`: a `LazyRow`, a plain
mapping, or anything else (a `TypeError`). -/
inductive RowInput where
  | lazyRow : Table → Row → RowInput
  | mapping : Row → RowInput
  | other : Value → RowInput

/-- The `rows` argument of `Table.__init__`: a sequence, or a non-sequence
treated as a scalar. -/
inductive TableInput where
  | seq : List RowInput → TableInput
  | scalar : Value → TableInput

/-- The constructor loop of `Table.__init__`: a `LazyRow` contributes its
underlying `_row` only; a mapping is appended and then
`add_new_columns` runs; anything else raises `TypeError`. -/
def buildRows : Table → List RowInput → Except Err Table
  | t, [] => .ok t
  | t, .lazyRow _ r :: rest =>
    buildRows (.mk (t.rows ++ [r]) t.columns t.scalar t.parent) rest
  | t, .mapping r :: rest =>
    match (Table.mk (t.rows ++ [r]) t.columns t.scalar t.parent).add_new_columns r with
    | .error e => .error e
    | .ok t₁ => buildRows t₁ rest
  | _, .other _ :: _ => .error .typeErr

/-- `Table.__init__`. -/
def Table.init (input : TableInput) (parent : Option Table) : Except Err Table :=
  match input with
  | .seq rs => buildRows (.mk [] [] .none parent) rs
  | .scalar v => .ok (.mk [] [] v parent)

/-! Size lemmas: every value a row lookup returns is structurally no larger
than the row it came from.  These justify the recursion of the scope-chain
walk, `shape`, and the recursive flattening. -/

theorem one_le_sizeOf_Value (v : Value) : 1 ≤ sizeOf v := by
  cases v
  all_goals simp
  all_goals omega

theorem sizeOf_fieldsGet (fs : List (String × Value)) (k : String) :
    sizeOf (fieldsGet fs k) < 1 + sizeOf fs := by
  induction fs with
  | nil => simp [fieldsGet]
  | cons p rest ih =>
    obtain ⟨k₁, v⟩ := p
    simp only [fieldsGet]
    split
    · simp
      omega
    · simp
      omega

theorem sizeOf_Row_get (r : Row) (k : String) : sizeOf (r.get k) < sizeOf r := by
  obtain ⟨fs⟩ := r
  have h := sizeOf_fieldsGet fs k
  simp [Row.get, Row.fields]
  omega

theorem sizeOf_fieldsGetItem (fs : List (String × Value)) (k : String) (v : Value)
    (h : fieldsGetItem fs k = some v) : sizeOf v < 1 + sizeOf fs := by
  induction fs with
  | nil => simp [fieldsGetItem] at h
  | cons p rest ih =>
    obtain ⟨k₁, v₁⟩ := p
    simp only [fieldsGetItem] at h
    split at h
    · cases h
      simp
      omega
    · have := ih h
      simp
      omega

theorem sizeOf_Row_getItem (r : Row) (k : String) (v : Value)
    (h : r.getItem k = some v) : sizeOf v < sizeOf r := by
  obtain ⟨fs⟩ := r
  have h₁ := sizeOf_fieldsGetItem fs k v h
  simp
  omega

theorem sizeOf_parent_row (r : Row) (t₁ : Table) (r₁ : Row)
    (h : r.get "__parent" = .lazy t₁ r₁) : sizeOf r₁ < sizeOf r := by
  have h₁ := sizeOf_Row_get r "__parent"
  rw [h] at h₁
  simp at h₁
  omega

theorem sizeOf_walkPath (ks : List String) (v w : Value)
    (h : walkPath v ks = .ok w) : sizeOf w ≤ sizeOf v := by
  induction ks generalizing v with
  | nil =>
    simp only [walkPath] at h
    cases h
    exact Nat.le_refl _
  | cons k ks ih =>
    simp only [walkPath] at h
    cases v with
    | row r =>
      simp only [Value.get] at h
      split at h
      · cases h
        have := one_le_sizeOf_Value (Value.row r)
        have h₂ : sizeOf (Value.none) = 1 := by simp
        omega
      · have h₁ := ih _ h
        have h₂ := sizeOf_Row_get r k
        have h₃ : sizeOf (Value.row r) = 1 + sizeOf r := by simp
        omega
    | none => simp [Value.get] at h
    | int n => simp [Value.get] at h
    | str s => simp [Value.get] at h
    | table t => simp [Value.get] at h
    | lazy t r => simp [Value.get] at h

theorem sizeOf_get_value_table (c : Column) (r : Row) (sub : Table)
    (h : c.get_value r = .ok (.table sub)) : sizeOf sub < sizeOf r := by
  induction c generalizing r with
  | base n key =>
    cases key with
    | single k =>
      simp only [Column.get_value, Except.ok.injEq] at h
      have h₁ := sizeOf_Row_get r k
      rw [h] at h₁
      simp at h₁
      omega
    | path ks =>
      simp only [Column.get_value] at h
      have h₁ := sizeOf_walkPath ks _ _ h
      have h₂ : sizeOf (Value.row r) = 1 + sizeOf r := by simp
      have h₃ : sizeOf (Value.table sub) = 1 + sizeOf sub := by simp
      cases ks with
      | nil => simp [walkPath] at h
      | cons k ks =>
        simp only [walkPath, Value.get] at h
        split at h
        · simp at h
        · have h₄ := sizeOf_walkPath ks _ _ h
          have h₅ := sizeOf_Row_get r k
          simp at h₄
          omega
  | sub k orig ih =>
    simp only [Column.get_value] at h
    split at h
    · simp at h
    next r₁ heq =>
      have h₁ := ih r₁ h
      have h₂ := sizeOf_Row_getItem r k _ heq
      simp at h₂
      omega
    · simp at h

/-! The recursive operations: row indexing, scope-chain field lookup,
`shape`/`rank`, and the recursive flattening `_asdict`. -/

/-- `Table.__getitem__`: `IndexError` at or beyond the row count, otherwise
the `LazyRow` view bound to this table and the selected row.  (Indices are
`Nat`; Python's negative-index convention is outside the claims.) -/
def Table.getRow (t : Table) (k : Nat) : Except Err Value :=
  if h : k < t.rows.length then .ok (.lazy t (t.rows.get ⟨k, h⟩))
  else .error .indexErr

/-- `LazyRow.__getitem__`: scan the owning table's columns (via
`get_column`, which also serves the reserved current-column alias); on a
miss move to `parent_row` (`self._row.get('__parent')`) and repeat; an
exhausted chain raises `KeyError(k)`.  A `__parent` entry that is neither a
`LazyRow` nor `None` makes the next iteration blow up on attribute access,
modelled as `Err.typeErr`. -/
def lazyRowGetItem (t : Table) (r : Row) (k : String) : Except Err Value :=
  match t.get_column k with
  | .error e => .error e
  | .ok (some c) => c.get_value r
  | .ok Option.none =>
    match _hp : r.get "__parent" with
    | .lazy t₁ r₁ => lazyRowGetItem t₁ r₁ k
    | .none => .error (.keyNotFound k)
    | _ => .error .typeErr
termination_by sizeOf r
decreasing_by exact sizeOf_parent_row r t₁ r₁ _hp

/-- The list of (table, row) contexts reachable from a `LazyRow` through
the reserved `__parent` back-links, starting with the row's own context. -/
def chainTables (t : Table) (r : Row) : List (Table × Row) :=
  (t, r) ::
    (match _hp : r.get "__parent" with
     | .lazy t₁ r₁ => chainTables t₁ r₁
     | _ => [])
termination_by sizeOf r
decreasing_by exact sizeOf_parent_row r t₁ r₁ _hp

/-- The scope chain is well formed: every `__parent` entry along it is
either absent/`None` or an actual `LazyRow`. -/
def chainClosed (r : Row) : Bool :=
  match _hp : r.get "__parent" with
  | .none => true
  | .lazy _ r₁ => chainClosed r₁
  | _ => false
termination_by sizeOf r
decreasing_by exact sizeOf_parent_row r _ r₁ _hp

/-- `Table.shape`: `[]` for a scalar table; otherwise the row count,
extended by the nested shape of the current (last) column's value on the
first row when that value is itself a table. -/
def Table.shape (t : Table) : Except Err (List Nat) :=
  if !t.scalar.isNone then .ok []
  else
    match _hr : t.rows, _hc : t.columns.getLast? with
    | r₀ :: _, some c =>
      match _hv : c.get_value r₀ with
      | .error e => .error e
      | .ok (.table sub) => (Table.shape sub).map (fun s => t.rows.length :: s)
      | .ok _ => .ok [t.rows.length]
    | _, _ => .ok [t.rows.length]
termination_by sizeOf t
decreasing_by
  have h₁ := sizeOf_get_value_table c r₀ sub _hv
  obtain ⟨rows, cols, s, p⟩ := t
  simp [Table.rows] at _hr
  subst _hr
  simp
  omega

/-- `Table.rank`. -/
def Table.rank (t : Table) : Except Err Nat := (Table.shape t).map List.length

/-- A value of the ordered mapping `LazyRow._asdict` builds: a value kept
as-is (a primitive scalar, or a rank-0 table's `scalar`), the list of the
recursive flattenings of a nested table's rows, or the textual rendering
`str(v)` of a non-primitive value (the string itself is not computed, see
the module comment). -/
inductive OutVal where
  | prim : Value → OutVal
  | list : List (List (String × OutVal)) → OutVal
  | stringified : Value → OutVal

/-- `if k in d: del d[k]` followed by `d[k] = v`: last write wins and the
key moves to the end. -/
def updateLast (d : List (String × OutVal)) (k : String) (v : OutVal) :
    List (String × OutVal) :=
  (d.filter (fun p => p.1 != k)) ++ [(k, v)]

mutual
/-- The column loop of `LazyRow._asdict` over the remaining columns `cs` of
the owning table, with accumulator `d`.  A hidden column is skipped unless
`named_only` is false and it is the table's current column (`c is
self._table.current_col`; object identity is modelled by list position:
called on the full column list, the current column is the one in last
position).  The value cases mirror the source: absent is omitted, a rank-0
nested table is replaced by its scalar, a nested table of positive rank by
its rows' recursive flattenings, a primitive kept, anything else
stringified. -/
def asdictCols : List Column → Table → Row → Bool →
    List (String × OutVal) → Except Err (List (String × OutVal))
  | [], _, _, _, d => .ok d
  | c :: cs, t, r, namedOnly, d =>
    if c.hidden && (namedOnly || !cs.isEmpty) then asdictCols cs t r namedOnly d
    else
      let k := if c.hidden then CURRENT_COLNAME else c.name
      match _hv : c.get_value r with
      | .error e => .error e
      | .ok Value.none => asdictCols cs t r namedOnly d
      | .ok (.table v) =>
        match Table.shape v with
        | .error e => .error e
        | .ok [] => asdictCols cs t r namedOnly (updateLast d k (.prim v.scalar))
        | .ok (_ :: _) =>
          match asdictRows v v.rows with
          | .error e => .error e
          | .ok ds => asdictCols cs t r namedOnly (updateLast d k (.list ds))
      | .ok (.int n) => asdictCols cs t r namedOnly (updateLast d k (.prim (.int n)))
      | .ok (.str s) => asdictCols cs t r namedOnly (updateLast d k (.prim (.str s)))
      | .ok v => asdictCols cs t r namedOnly (updateLast d k (.stringified v))
termination_by cs _ r _ _ => (sizeOf r, sizeOf cs)
decreasing_by
  all_goals simp_wf
  all_goals first
    | (apply Prod.Lex.right
       omega)
    | (apply Prod.Lex.left
       have h₁ := sizeOf_get_value_table c r v _hv
       obtain ⟨rows, cols, s, p⟩ := v
       simp only [Table.rows]
       simp at h₁
       omega)

/-- `[r._asdict() for r in v]` over the rows of a nested table `tv`
(each row is viewed as `LazyRow(tv, row)` and flattened with the default
`named_only=False`). -/
def asdictRows : Table → List Row → Except Err (List (List (String × OutVal)))
  | _, [] => .ok []
  | tv, r :: rs =>
    match asdictCols tv.columns tv r false [] with
    | .error e => .error e
    | .ok d =>
      match asdictRows tv rs with
      | .error e => .error e
      | .ok ds => .ok (d :: ds)
termination_by _ rs => (sizeOf rs, 0)
decreasing_by
  all_goals simp_wf
  all_goals apply Prod.Lex.left
  all_goals omega
end

/-- `LazyRow._asdict(named_only)`. -/
def lazyRowAsdict (t : Table) (r : Row) (namedOnly : Bool) :
    Except Err (List (String × OutVal)) :=
  asdictCols t.columns t r namedOnly []

/-- `Table._asdict`: the scalar itself for a scalar table, otherwise the
list of each row's flattening. -/
def Table.asdict (t : Table) : Except Err OutVal :=
  if !t.scalar.isNone then .ok (.prim t.scalar)
  else (asdictRows t t.rows).map OutVal.list

/-! Equation lemmas for the well-founded recursions, in a form usable by
`simp` (one per reachable branch, conditioned on the discriminants). -/

theorem lazyRowGetItem_err (t : Table) (r : Row) (k : String) (e : Err)
    (h : t.get_column k = .error e) : lazyRowGetItem t r k = .error e := by
  rw [lazyRowGetItem.eq_def, h]

theorem lazyRowGetItem_found (t : Table) (r : Row) (k : String) (c : Column)
    (h : t.get_column k = .ok (some c)) :
    lazyRowGetItem t r k = c.get_value r := by
  rw [lazyRowGetItem.eq_def, h]

theorem lazyRowGetItem_parent (t : Table) (r : Row) (k : String) (t₁ : Table) (r₁ : Row)
    (h : t.get_column k = .ok Option.none) (hp : r.get "__parent" = .lazy t₁ r₁) :
    lazyRowGetItem t r k = lazyRowGetItem t₁ r₁ k := by
  rw [lazyRowGetItem.eq_def, h, hp]

theorem lazyRowGetItem_exhausted (t : Table) (r : Row) (k : String)
    (h : t.get_column k = .ok Option.none) (hp : r.get "__parent" = .none) :
    lazyRowGetItem t r k = .error (.keyNotFound k) := by
  rw [lazyRowGetItem.eq_def, h, hp]

theorem chainTables_parent (t : Table) (r : Row) (t₁ : Table) (r₁ : Row)
    (hp : r.get "__parent" = .lazy t₁ r₁) :
    chainTables t r = (t, r) :: chainTables t₁ r₁ := by
  rw [chainTables.eq_def, hp]

theorem chainTables_none (t : Table) (r : Row)
    (hp : r.get "__parent" = .none) : chainTables t r = [(t, r)] := by
  rw [chainTables.eq_def, hp]

theorem chainClosed_none (r : Row) (hp : r.get "__parent" = .none) :
    chainClosed r = true := by
  rw [chainClosed.eq_def, hp]

theorem chainClosed_lazy (r : Row) (t₁ : Table) (r₁ : Row)
    (hp : r.get "__parent" = .lazy t₁ r₁) : chainClosed r = chainClosed r₁ := by
  rw [chainClosed.eq_def, hp]

theorem shape_scalar (t : Table) (h : t.scalar.isNone = false) :
    t.shape = .ok [] := by
  rw [Table.shape.eq_def]
  simp [h]

theorem shape_empty (t : Table) (h : t.scalar.isNone = true) (hr : t.rows = []) :
    t.shape = .ok [0] := by
  rw [Table.shape.eq_def]
  simp [h, hr]

theorem shape_nocols (t : Table) (h : t.scalar.isNone = true)
    (hc : t.columns.getLast? = Option.none) : t.shape = .ok [t.rows.length] := by
  rw [Table.shape.eq_def]
  rcases hr : t.rows with _ | ⟨r₀, rtl⟩ <;> simp [h, hc, hr]

theorem shape_table (t : Table) (r₀ : Row) (rtl : List Row) (c : Column) (sub : Table)
    (h : t.scalar.isNone = true) (hr : t.rows = r₀ :: rtl)
    (hc : t.columns.getLast? = some c) (hv : c.get_value r₀ = .ok (.table sub)) :
    t.shape = (sub.shape).map (fun s => t.rows.length :: s) := by
  rw [Table.shape.eq_def]
  simp only [h, Bool.not_true, Bool.false_eq_true, if_false]
  split
  · rename_i r₀x tailx cx hrx hcx
    rw [hr] at hrx
    rw [hc] at hcx
    injection hrx with e1 e2
    injection hcx with e3
    subst e1
    subst e2
    subst e3
    split <;> simp_all
  · rename_i hne
    exact (hne r₀ rtl c hr hc).elim

theorem shape_err (t : Table) (r₀ : Row) (rtl : List Row) (c : Column) (e : Err)
    (h : t.scalar.isNone = true) (hr : t.rows = r₀ :: rtl)
    (hc : t.columns.getLast? = some c) (hv : c.get_value r₀ = .error e) :
    t.shape = .error e := by
  rw [Table.shape.eq_def]
  simp only [h, Bool.not_true, Bool.false_eq_true, if_false]
  split
  · rename_i r₀x tailx cx hrx hcx
    rw [hr] at hrx
    rw [hc] at hcx
    injection hrx with e1 e2
    injection hcx with e3
    subst e1
    subst e2
    subst e3
    split <;> simp_all
  · rename_i hne
    exact (hne r₀ rtl c hr hc).elim

theorem shape_flat (t : Table) (r₀ : Row) (rtl : List Row) (c : Column) (v : Value)
    (h : t.scalar.isNone = true) (hr : t.rows = r₀ :: rtl)
    (hc : t.columns.getLast? = some c) (hv : c.get_value r₀ = .ok v)
    (hnt : ∀ sub, v ≠ .table sub) : t.shape = .ok [t.rows.length] := by
  rw [Table.shape.eq_def]
  simp only [h, Bool.not_true, Bool.false_eq_true, if_false]
  split
  · rename_i r₀x tailx cx hrx hcx
    rw [hr] at hrx
    rw [hc] at hcx
    injection hrx with e1 e2
    injection hcx with e3
    subst e1
    subst e2
    subst e3
    split
    · simp_all
    · rename_i subx hveq
      rw [hv] at hveq
      injection hveq with e4
      exact (hnt subx e4).elim
    · simp_all
  · rename_i hne
    exact (hne r₀ rtl c hr hc).elim

theorem asdictCols_nil (t : Table) (r : Row) (b : Bool) (d : List (String × OutVal)) :
    asdictCols [] t r b d = .ok d := by
  rw [asdictCols.eq_def]

theorem asdictCols_skip (c : Column) (cs : List Column) (t : Table) (r : Row)
    (b : Bool) (d : List (String × OutVal))
    (hskip : (c.hidden && (b || !cs.isEmpty)) = true) :
    asdictCols (c :: cs) t r b d = asdictCols cs t r b d := by
  rw [asdictCols.eq_def]
  simp [hskip]

theorem asdictCols_err (c : Column) (cs : List Column) (t : Table) (r : Row)
    (b : Bool) (d : List (String × OutVal)) (e : Err)
    (hskip : (c.hidden && (b || !cs.isEmpty)) = false)
    (hv : c.get_value r = .error e) :
    asdictCols (c :: cs) t r b d = .error e := by
  rw [asdictCols.eq_def]
  simp only [hskip, Bool.false_eq_true, if_false]
  split <;> simp_all

theorem asdictCols_none (c : Column) (cs : List Column) (t : Table) (r : Row)
    (b : Bool) (d : List (String × OutVal))
    (hskip : (c.hidden && (b || !cs.isEmpty)) = false)
    (hv : c.get_value r = .ok .none) :
    asdictCols (c :: cs) t r b d = asdictCols cs t r b d := by
  rw [asdictCols.eq_def]
  simp only [hskip, Bool.false_eq_true, if_false]
  split <;> simp_all

theorem asdictCols_table0 (c : Column) (cs : List Column) (t : Table) (r : Row)
    (b : Bool) (d : List (String × OutVal)) (v : Table)
    (hskip : (c.hidden && (b || !cs.isEmpty)) = false)
    (hv : c.get_value r = .ok (.table v)) (hs : v.shape = .ok []) :
    asdictCols (c :: cs) t r b d =
      asdictCols cs t r b
        (updateLast d (if c.hidden then CURRENT_COLNAME else c.name) (.prim v.scalar)) := by
  rw [asdictCols.eq_def]
  simp only [hskip, Bool.false_eq_true, if_false]
  split <;> simp_all

theorem asdictCols_tablePos (c : Column) (cs : List Column) (t : Table) (r : Row)
    (b : Bool) (d : List (String × OutVal)) (v : Table) (n : Nat) (s : List Nat)
    (ds : List (List (String × OutVal)))
    (hskip : (c.hidden && (b || !cs.isEmpty)) = false)
    (hv : c.get_value r = .ok (.table v)) (hs : v.shape = .ok (n :: s))
    (hds : asdictRows v v.rows = .ok ds) :
    asdictCols (c :: cs) t r b d =
      asdictCols cs t r b
        (updateLast d (if c.hidden then CURRENT_COLNAME else c.name) (.list ds)) := by
  rw [asdictCols.eq_def]
  simp only [hskip, Bool.false_eq_true, if_false]
  split <;> simp_all

theorem asdictCols_int (c : Column) (cs : List Column) (t : Table) (r : Row)
    (b : Bool) (d : List (String × OutVal)) (n : Int)
    (hskip : (c.hidden && (b || !cs.isEmpty)) = false)
    (hv : c.get_value r = .ok (.int n)) :
    asdictCols (c :: cs) t r b d =
      asdictCols cs t r b
        (updateLast d (if c.hidden then CURRENT_COLNAME else c.name) (.prim (.int n))) := by
  rw [asdictCols.eq_def]
  simp only [hskip, Bool.false_eq_true, if_false]
  split <;> simp_all

theorem asdictCols_str (c : Column) (cs : List Column) (t : Table) (r : Row)
    (b : Bool) (d : List (String × OutVal)) (s : String)
    (hskip : (c.hidden && (b || !cs.isEmpty)) = false)
    (hv : c.get_value r = .ok (.str s)) :
    asdictCols (c :: cs) t r b d =
      asdictCols cs t r b
        (updateLast d (if c.hidden then CURRENT_COLNAME else c.name) (.prim (.str s))) := by
  rw [asdictCols.eq_def]
  simp only [hskip, Bool.false_eq_true, if_false]
  split <;> simp_all

theorem asdictRows_nil (tv : Table) : asdictRows tv [] = .ok [] := by
  rw [asdictRows.eq_def]

theorem asdictRows_cons (tv : Table) (r : Row) (rs : List Row)
    (d : List (String × OutVal)) (ds : List (List (String × OutVal)))
    (hd : asdictCols tv.columns tv r false [] = .ok d)
    (hds : asdictRows tv rs = .ok ds) :
    asdictRows tv (r :: rs) = .ok (d :: ds) := by
  rw [asdictRows.eq_def]
  simp [hd, hds]

/-! Auxiliary facts used by the claim theorems. -/

theorem one_le_sizeOf_Row (r : Row) : 1 ≤ sizeOf r := by
  obtain ⟨fs⟩ := r
  simp

theorem colnames_appendColumnIfNew (t : Table) (c : Column) :
    (c.name ∈ t.colnames → t.appendColumnIfNew c = t)
    ∧ (c.name ∉ t.colnames →
        (t.appendColumnIfNew c).colnames = t.colnames ++ [c.name]) := by
  constructor
  · intro hmem
    unfold Table.appendColumnIfNew
    rw [if_pos hmem]
  · intro hmem
    unfold Table.appendColumnIfNew
    rw [if_neg hmem]
    simp [Table.colnames, Table.columns]

/-! Concrete fixtures used by the witnesses. -/

/-- A table whose single row lives under a parent scope context. -/
def fxParentRow : Row := .mk [("p", .int 42)]

def fxParentT : Table := .mk [fxParentRow] [Column.ofKey "p"] .none Option.none

def fxChildRow : Row := .mk [("c", .int 1), ("__parent", .lazy fxParentT fxParentRow)]

def fxChildT : Table := .mk [fxChildRow] [Column.ofKey "c"] .none Option.none

/-- A 2-row nested table and an outer table holding it in its current column. -/
def fxInnerT : Table :=
  .mk [.mk [("y", .int 1)], .mk [("y", .int 2)]] [Column.ofKey "y"] .none Option.none

def fxSiblingT : Table :=
  .mk [.mk [("z", .int 1)], .mk [("z", .int 2)], .mk [("z", .int 3)]]
    [Column.ofKey "z"] .none Option.none

def fxOuterRow : Row := .mk [("w", .table fxSiblingT), ("x", .table fxInnerT)]

def fxOuterT : Table := .mk [fxOuterRow] [Column.ofKey "w", Column.ofKey "x"] .none Option.none

/-- A table with one visible and one hidden (current) column. -/
def fxHidCol : Column := .base "_h" (.single "h")

def fxHidRow : Row := .mk [("a", .int 1), ("h", .int 7)]

def fxHidT : Table := .mk [fxHidRow] [Column.ofKey "a", fxHidCol] .none Option.none

/-- A row with falsy-but-present, `None`, and absent fields. -/
def fxFalsyRow : Row := .mk [("z", .int 0), ("e", .str ""), ("n", Value.none)]

def fxFalsyT : Table :=
  .mk [fxFalsyRow] [Column.ofKey "z", Column.ofKey "e", Column.ofKey "n", Column.ofKey "m"]
    .none Option.none

/-- A one-column table for the add-column no-op witness. -/
def fxColT : Table := .mk [] [Column.ofKey "a"] .none Option.none

/-! The claims. -/

/-- Claim C9: for every table and every index `k` at or beyond the row
count, `Table.__getitem__` fails with an `IndexError`; for `k` below the
row count it returns the `LazyRow` view bound to this table and the `k`-th
row. -/
theorem claim_C9 (t : Table) (k : Nat) :
    (t.rows.length ≤ k → t.getRow k = .error .indexErr)
    ∧ (∀ h : k < t.rows.length, t.getRow k = .ok (.lazy t (t.rows.get ⟨k, h⟩))) := by
  constructor
  · intro h
    unfold Table.getRow
    rw [dif_neg (by omega)]
  · intro h
    unfold Table.getRow
    rw [dif_pos h]

/-- Witness for C9 on a one-row table: index 1 raises, index 0 returns the
bound view. -/
theorem claim_C9_witness :
    fxChildT.getRow 1 = .error .indexErr
    ∧ fxChildT.getRow 0 = .ok (.lazy fxChildT fxChildRow) :=
  ⟨(claim_C9 fxChildT 1).1 (by decide), (claim_C9 fxChildT 0).2 (by decide)⟩

/-- Claim C4: a table built from a scalar (any non-`None` value, so that the
`scalar` slot is actually occupied) has shape `[]`, rank `0`, and its
flattening returns exactly the scalar. -/
theorem claim_C4 (v : Value) (hv : v.isNone = false) :
    Table.init (.scalar v) Option.none = .ok (Table.mk [] [] v Option.none)
    ∧ (Table.mk [] [] v Option.none).shape = .ok []
    ∧ (Table.mk [] [] v Option.none).rank = .ok 0
    ∧ (Table.mk [] [] v Option.none).asdict = .ok (.prim v) := by
  refine ⟨rfl, shape_scalar (Table.mk [] [] v Option.none) hv, ?_, ?_⟩
  · rw [Table.rank, shape_scalar (Table.mk [] [] v Option.none) hv]
    rfl
  · unfold Table.asdict
    simp [Table.scalar, hv]

/-- Witness for C4 at the scalar `5` (the spec's scenario B). -/
theorem claim_C4_witness :
    Table.init (.scalar (.int 5)) Option.none = .ok (Table.mk [] [] (.int 5) Option.none)
    ∧ (Table.mk [] [] (.int 5) Option.none).shape = .ok []
    ∧ (Table.mk [] [] (.int 5) Option.none).rank = .ok 0
    ∧ (Table.mk [] [] (.int 5) Option.none).asdict = .ok (.prim (.int 5)) :=
  claim_C4 (.int 5) rfl

/-- Claim C3: `add_column` preserves uniqueness of column names, and when
the incoming name already occurs the successful result is the unchanged
table (when the call raises instead, no table is produced at all, so the
schema is never modified). -/
theorem claim_C3 (t : Table) (c : Column) (t' : Table)
    (hok : t.add_column c = .ok t') :
    (t.colnames.Nodup → t'.colnames.Nodup)
    ∧ (c.name ∈ t.colnames → t' = t) := by
  have hmain : t' = t.appendColumnIfNew c := by
    unfold Table.add_column at hok
    split at hok
    · cases hok
    · split at hok
      · cases hok
        rfl
      · split at hok
        · cases hok
        · cases hok
          rfl
  subst hmain
  constructor
  · intro hnd
    by_cases hmem : c.name ∈ t.colnames
    · rw [(colnames_appendColumnIfNew t c).1 hmem]
      exact hnd
    · rw [(colnames_appendColumnIfNew t c).2 hmem]
      simp [List.nodup_append, hnd, hmem]
  · intro hmem
    exact (colnames_appendColumnIfNew t c).1 hmem

/-- Witness for C3: re-adding column `a` to a table that has it is a no-op
and keeps the names unique. -/
theorem claim_C3_witness :
    fxColT.colnames.Nodup ∧ fxColT = fxColT :=
  ⟨(claim_C3 fxColT (Column.ofKey "a") fxColT rfl).1 (by decide),
   (claim_C3 fxColT (Column.ofKey "a") fxColT rfl).2 (by decide)⟩

/-- Counterexample to claim C6 as stated: for the `SubColumn` over key
`"s"` and a row without that key, `get_value` raises `KeyError("s")`
(`row[self.key]` in the source) instead of returning absent. -/
theorem claim_C6_counterexample :
    (Column.sub "s" (Column.ofKey "y")).get_value (.mk [("a", .int 1)])
        = .error (.keyNotFound "s")
    ∧ (Column.sub "s" (Column.ofKey "y")).get_value (.mk [("a", .int 1)])
        ≠ .ok Value.none :=
  ⟨rfl, fun h => nomatch h⟩

/-- Claim C6 as amended: when the sub-row at the `SubColumn`'s key is
present as a nested row, `get_value` delegates to the origin column on it;
when the key is absent, `get_value` raises `KeyError` naming the key. -/
theorem claim_C6_amended (k : String) (orig : Column) (r : Row) :
    (r.getItem k = Option.none →
      (Column.sub k orig).get_value r = .error (.keyNotFound k))
    ∧ (∀ r₁, r.getItem k = some (.row r₁) →
      (Column.sub k orig).get_value r = orig.get_value r₁) := by
  constructor
  · intro h
    simp [Column.get_value, h]
  · intro r₁ h
    simp [Column.get_value, h]

/-- Witness for the amended C6: a missing key raises; a present nested row
delegates to the origin column. -/
theorem claim_C6_witness :
    (Column.sub "s" (Column.ofKey "y")).get_value (.mk []) = .error (.keyNotFound "s")
    ∧ (Column.sub "s" (Column.ofKey "y")).get_value
        (.mk [("s", .row (.mk [("y", .int 9)]))])
        = (Column.ofKey "y").get_value (.mk [("y", .int 9)]) :=
  ⟨(claim_C6_amended "s" (Column.ofKey "y") (.mk [])).1 rfl,
   (claim_C6_amended "s" (Column.ofKey "y") (.mk [("s", .row (.mk [("y", .int 9)]))])).2
     (.mk [("y", .int 9)]) rfl⟩

theorem fieldsGet_of_not_mem (fs : List (String × Value)) (k : String)
    (h : ∀ p ∈ fs, p.1 ≠ k) : fieldsGet fs k = .none := by
  induction fs with
  | nil => rfl
  | cons p rest ih =>
    obtain ⟨k₁, v⟩ := p
    simp only [fieldsGet]
    rw [if_neg (h (k₁, v) (by simp))]
    exact ih (fun q hq => h q (by simp [hq]))

theorem fieldsGet_append_head (fs₁ fs₂ : List (String × Value)) (k : String) (v : Value)
    (h : ∀ p ∈ fs₁, p.1 ≠ k) :
    fieldsGet (fs₁ ++ (k, v) :: fs₂) k = v := by
  induction fs₁ with
  | nil => simp [fieldsGet]
  | cons p rest ih =>
    obtain ⟨k₁, v₁⟩ := p
    simp only [List.cons_append, fieldsGet]
    rw [if_neg (h (k₁, v₁) (by simp))]
    exact ih (fun q hq => h q (by simp [hq]))

/-- Claim C10: a field stored as `None` is indistinguishable from an absent
field: `Column.get_value` returns the absent result (`None`) when the key
is missing, when it is mapped to `None`, and when `None` occurs at an
intermediate step of a path-valued key; and the flattening loop omits the
column's key in all those cases. -/
theorem claim_C10 :
    (∀ nm k fs, (∀ p ∈ fs, p.1 ≠ k) →
      (Column.base nm (.single k)).get_value (.mk fs) = .ok Value.none)
    ∧ (∀ nm k fs₁ fs₂, (∀ p ∈ fs₁, p.1 ≠ k) →
      (Column.base nm (.single k)).get_value (.mk (fs₁ ++ (k, Value.none) :: fs₂))
        = .ok Value.none)
    ∧ (∀ nm k ks fs, (Row.mk fs).get k = Value.none →
      (Column.base nm (.path (k :: ks))).get_value (.mk fs) = .ok Value.none)
    ∧ (∀ cl cs t r b d, cl.get_value r = .ok Value.none →
      asdictCols (cl :: cs) t r b d = asdictCols cs t r b d) := by
  refine ⟨?_, ?_, ?_, ?_⟩
  · intro nm k fs h
    simp [Column.get_value, Row.get, Row.fields, fieldsGet_of_not_mem fs k h]
  · intro nm k fs₁ fs₂ h
    simp [Column.get_value, Row.get, Row.fields, fieldsGet_append_head fs₁ fs₂ k _ h]
  · intro nm k ks fs h
    simp [Column.get_value, walkPath, Value.get, h, Value.isNone]
  · intro cl cs t r b d hv
    by_cases hskip : (cl.hidden && (b || !cs.isEmpty)) = true
    · exact asdictCols_skip cl cs t r b d hskip
    · exact asdictCols_none cl cs t r b d (by simpa using hskip) hv

/-- Witness for C10: missing key, key mapped to `None`, `None` at a path
step, and the flattening loop dropping such a column. -/
theorem claim_C10_witness :
    (Column.base "m" (.single "m")).get_value (.mk [("z", .int 0)]) = .ok Value.none
    ∧ (Column.base "n" (.single "n")).get_value
        (.mk [("a", .int 1), ("n", Value.none)]) = .ok Value.none
    ∧ (Column.base "p" (.path ["a", "b"])).get_value (.mk [("a", Value.none)])
        = .ok Value.none
    ∧ asdictCols [Column.ofKey "n"] fxFalsyT fxFalsyRow true []
        = asdictCols [] fxFalsyT fxFalsyRow true [] :=
  ⟨claim_C10.1 "m" "m" [("z", .int 0)] (by decide),
   claim_C10.2.1 "n" "n" [("a", .int 1)] [] (by decide),
   claim_C10.2.2.1 "p" "a" ["b"] [("a", Value.none)] rfl,
   claim_C10.2.2.2 (Column.ofKey "n") [] fxFalsyT fxFalsyRow true [] rfl⟩

/-- Claim C8: in the flattening loop, a retained (non-hidden) column whose
value is absent contributes nothing, while a present falsy scalar (zero,
the empty string) is written to the output under the column's key. -/
theorem claim_C8 (c : Column) (cs : List Column) (t : Table) (r : Row) (b : Bool)
    (d : List (String × OutVal)) (hhid : c.hidden = false) :
    (c.get_value r = .ok Value.none →
      asdictCols (c :: cs) t r b d = asdictCols cs t r b d)
    ∧ (c.get_value r = .ok (.int 0) →
      asdictCols (c :: cs) t r b d
        = asdictCols cs t r b (updateLast d c.name (.prim (.int 0))))
    ∧ (c.get_value r = .ok (.str "") →
      asdictCols (c :: cs) t r b d
        = asdictCols cs t r b (updateLast d c.name (.prim (.str "")))) := by
  have hskip : (c.hidden && (b || !cs.isEmpty)) = false := by simp [hhid]
  refine ⟨fun hv => asdictCols_none c cs t r b d hskip hv, fun hv => ?_, fun hv => ?_⟩
  · rw [asdictCols_int c cs t r b d 0 hskip hv]
    simp [hhid]
  · rw [asdictCols_str c cs t r b d "" hskip hv]
    simp [hhid]

/-- Witness for C8 on a row with a `None` field, a zero field and an
empty-string field. -/
theorem claim_C8_witness :
    (asdictCols [Column.ofKey "n"] fxFalsyT fxFalsyRow false []
      = asdictCols [] fxFalsyT fxFalsyRow false [])
    ∧ (asdictCols [Column.ofKey "z"] fxFalsyT fxFalsyRow false []
      = asdictCols [] fxFalsyT fxFalsyRow false
          (updateLast [] (Column.ofKey "z").name (.prim (.int 0))))
    ∧ (asdictCols [Column.ofKey "e"] fxFalsyT fxFalsyRow false []
      = asdictCols [] fxFalsyT fxFalsyRow false
          (updateLast [] (Column.ofKey "e").name (.prim (.str "")))) :=
  ⟨(claim_C8 (Column.ofKey "n") [] fxFalsyT fxFalsyRow false [] rfl).1 rfl,
   (claim_C8 (Column.ofKey "z") [] fxFalsyT fxFalsyRow false [] rfl).2.1 rfl,
   (claim_C8 (Column.ofKey "e") [] fxFalsyT fxFalsyRow false [] rfl).2.2 rfl⟩

/-- Claim C7: in the flattening loop, a hidden column is skipped when
`named_only` is true or when it is not the table's current (last) column;
when `named_only` is false and it is the current column its value is
written under the reserved alias instead of its own name. -/
theorem claim_C7 (c : Column) (cs : List Column) (t : Table) (r : Row) (b : Bool)
    (d : List (String × OutVal)) (hhid : c.hidden = true) :
    ((b = true ∨ cs ≠ []) → asdictCols (c :: cs) t r b d = asdictCols cs t r b d)
    ∧ (∀ n : Int, c.get_value r = .ok (.int n) →
      asdictCols [c] t r false d = .ok (updateLast d CURRENT_COLNAME (.prim (.int n)))) := by
  constructor
  · intro hb
    apply asdictCols_skip
    rcases hb with hb | hb
    · simp [hhid, hb]
    · cases cs with
      | nil => exact absurd rfl hb
      | cons c₁ cs₁ => simp [hhid]
  · intro n hv
    rw [asdictCols_int c [] t r false d n (by simp) hv]
    rw [asdictCols_nil]
    simp [hhid]

/-- Witness for C7 on a hidden current column holding `7`: skipped under
`named_only`, aliased to the reserved name otherwise. -/
theorem claim_C7_witness :
    (asdictCols [fxHidCol] fxHidT fxHidRow true []
      = asdictCols [] fxHidT fxHidRow true [])
    ∧ (asdictCols [fxHidCol] fxHidT fxHidRow false []
      = .ok (updateLast [] CURRENT_COLNAME (.prim (.int 7)))) :=
  ⟨(claim_C7 fxHidCol [] fxHidT fxHidRow true [] rfl).1 (Or.inl rfl),
   (claim_C7 fxHidCol [] fxHidT fxHidRow false [] rfl).2 7 rfl⟩

/-- Claim C5: for a non-scalar table whose current (last) column's value on
the first row is a nested table of shape `S`, the shape is the row count
followed by `S`, and the rank is its length; sibling columns are not
consulted (the statement constrains only the current column). -/
theorem claim_C5 (t sub : Table) (r₀ : Row) (rtl : List Row) (c : Column) (S : List Nat)
    (h1 : t.scalar.isNone = true) (h2 : t.rows = r₀ :: rtl)
    (h3 : t.columns.getLast? = some c) (h4 : c.get_value r₀ = .ok (.table sub))
    (h5 : sub.shape = .ok S) :
    t.shape = .ok (t.rows.length :: S) ∧ t.rank = .ok (S.length + 1) := by
  have h := shape_table t r₀ rtl c sub h1 h2 h3 h4
  rw [h5] at h
  refine ⟨h, ?_⟩
  rw [Table.rank, h]
  rfl

/-- Witness for C5: the outer fixture has current column `x` holding a
2-row nested table while a sibling column holds a 3-row one; the shape is
`[1, 2]` and the rank `2`. -/
theorem claim_C5_witness :
    fxOuterT.shape = .ok [1, 2] ∧ fxOuterT.rank = .ok 2 :=
  claim_C5 fxOuterT fxInnerT fxOuterRow [] (Column.ofKey "x") [2] rfl rfl rfl rfl
    (shape_flat fxInnerT (.mk [("y", .int 1)]) [.mk [("y", .int 2)]] (Column.ofKey "y")
      (.int 1) rfl rfl rfl rfl (fun sub => by simp))

/-! Claim C2: construction from a sequence of row inputs. -/

/-- Whether a constructor input is neither a `LazyRow` nor a mapping
(`TypeError` in the source). -/
def RowInput.isOther : RowInput → Bool
  | .other _ => true
  | _ => false

/-- The underlying `Row` a constructor input contributes. -/
def RowInput.rowOf : RowInput → Option Row
  | .lazyRow _ r => some r
  | .mapping r => some r
  | .other _ => Option.none

/-- Written from the spec's words, for the refinement comparison: extend an
accumulator of column names with the field names of one record that do not
start with the reserved `__` prefix and are not already present, in order. -/
def addKeys : List String → List (String × Value) → List String
  | acc, [] => acc
  | acc, (k, _) :: fs =>
    if strStartsWith k "__" then addKeys acc fs
    else if k ∈ acc then addKeys acc fs
    else addKeys (acc ++ [k]) fs

/-- Written from the spec's words: the union, in first-seen order, of the
non-internal field names of the mapping inputs (LazyRow inputs register no
columns). -/
def inputsColnames : List String → List RowInput → List String
  | acc, [] => acc
  | acc, .mapping r :: rest => inputsColnames (addKeys acc r.fields) rest
  | acc, _ :: rest => inputsColnames acc rest

theorem addNewColumnsFrom_spec (fs : List (String × Value)) (t : Table) :
    ∃ t₁, addNewColumnsFrom t fs = .ok t₁
      ∧ t₁.rows = t.rows ∧ t₁.scalar = t.scalar ∧ t₁.parent = t.parent
      ∧ t₁.colnames = addKeys t.colnames fs := by
  induction fs generalizing t with
  | nil => exact ⟨t, rfl, rfl, rfl, rfl, rfl⟩
  | cons p fs ih =>
    obtain ⟨k, v⟩ := p
    simp only [addNewColumnsFrom, addKeys]
    by_cases hres : strStartsWith k "__" = true
    · rw [if_pos hres, if_pos hres]
      exact ih t
    · rw [if_neg hres, if_neg hres]
      have hname : (Column.ofKey k).name = k := rfl
      have hadd : t.add_column (Column.ofKey k) = .ok (t.appendColumnIfNew (Column.ofKey k)) := by
        unfold Table.add_column
        rw [hname, if_neg hres]
        cases ht : t.rows with
        | nil => rfl
        | cons r₀ rtl => rfl
      rw [hadd]
      by_cases hmem : k ∈ t.colnames
      · rw [if_pos hmem]
        have heq : t.appendColumnIfNew (Column.ofKey k) = t :=
          (colnames_appendColumnIfNew t (Column.ofKey k)).1 (by rw [hname]; exact hmem)
        rw [heq]
        exact ih t
      · rw [if_neg hmem]
        obtain ⟨t₁, h1, h2, h3, h4, h5⟩ := ih (t.appendColumnIfNew (Column.ofKey k))
        refine ⟨t₁, h1, ?_, ?_, ?_, ?_⟩
        · rw [h2]
          unfold Table.appendColumnIfNew
          rw [hname, if_neg hmem]
          rfl
        · rw [h3]
          unfold Table.appendColumnIfNew
          rw [hname, if_neg hmem]
          rfl
        · rw [h4]
          unfold Table.appendColumnIfNew
          rw [hname, if_neg hmem]
          rfl
        · rw [h5, (colnames_appendColumnIfNew t (Column.ofKey k)).2 (by rw [hname]; exact hmem), hname]

theorem buildRows_spec (inputs : List RowInput) (t : Table)
    (h : ∀ i ∈ inputs, i.isOther = false) :
    ∃ t₁, buildRows t inputs = .ok t₁
      ∧ t₁.rows = t.rows ++ inputs.filterMap RowInput.rowOf
      ∧ t₁.scalar = t.scalar ∧ t₁.parent = t.parent
      ∧ t₁.colnames = inputsColnames t.colnames inputs := by
  induction inputs generalizing t with
  | nil => exact ⟨t, rfl, by simp, rfl, rfl, rfl⟩
  | cons i rest ih =>
    cases i with
    | other v => exact absurd (h (.other v) (by simp)) (by simp [RowInput.isOther])
    | lazyRow tl r =>
      simp only [buildRows]
      obtain ⟨t₁, h1, h2, h3, h4, h5⟩ :=
        ih (.mk (t.rows ++ [r]) t.columns t.scalar t.parent)
          (fun j hj => h j (by simp [hj]))
      refine ⟨t₁, h1, ?_, h3, h4, h5⟩
      rw [h2]
      simp [Table.rows, RowInput.rowOf, inputsColnames]
    | mapping r =>
      simp only [buildRows]
      obtain ⟨t₂, hb1, hb2, hb3, hb4, hb5⟩ :=
        addNewColumnsFrom_spec r.fields (.mk (t.rows ++ [r]) t.columns t.scalar t.parent)
      rw [show (Table.mk (t.rows ++ [r]) t.columns t.scalar t.parent).add_new_columns r
            = addNewColumnsFrom (.mk (t.rows ++ [r]) t.columns t.scalar t.parent) r.fields
          from rfl]
      rw [hb1]
      obtain ⟨t₁, h1, h2, h3, h4, h5⟩ := ih t₂ (fun j hj => h j (by simp [hj]))
      refine ⟨t₁, h1, ?_, ?_, ?_, ?_⟩
      · rw [h2, hb2]
        simp [Table.rows, RowInput.rowOf]
      · rw [h3, hb3]
        rfl
      · rw [h4, hb4]
        rfl
      · rw [h5, hb5]
        rfl

theorem length_filterMap_rowOf (inputs : List RowInput)
    (h : ∀ i ∈ inputs, i.isOther = false) :
    (inputs.filterMap RowInput.rowOf).length = inputs.length := by
  induction inputs with
  | nil => rfl
  | cons i rest ih =>
    have hr := ih (fun j hj => h j (by simp [hj]))
    cases i with
    | other v => exact absurd (h (.other v) (by simp)) (by simp [RowInput.isOther])
    | lazyRow tl r => simp [RowInput.rowOf, hr]
    | mapping r => simp [RowInput.rowOf, hr]

/-- Claim C2: a table constructed from a sequence of `N` inputs that are
mappings or LazyRows has `N` rows (each input contributing its row, a
LazyRow its underlying `_row` without registering columns), and its column
names are the union, in first-seen order, of the mapping inputs' field
names that do not start with the reserved `__` prefix. -/
theorem claim_C2 (inputs : List RowInput) (t : Table)
    (h : ∀ i ∈ inputs, i.isOther = false)
    (hok : Table.init (.seq inputs) Option.none = .ok t) :
    t.rows.length = inputs.length
    ∧ t.rows = inputs.filterMap RowInput.rowOf
    ∧ t.colnames = inputsColnames [] inputs := by
  obtain ⟨t₁, h1, h2, h3, h4, h5⟩ := buildRows_spec inputs (.mk [] [] .none Option.none) h
  rw [show Table.init (.seq inputs) Option.none
        = buildRows (.mk [] [] .none Option.none) inputs from rfl] at hok
  rw [h1] at hok
  injection hok with hok
  subst hok
  refine ⟨?_, ?_, ?_⟩
  · rw [h2]
    simp [Table.rows, length_filterMap_rowOf inputs h]
  · rw [h2]
    rfl
  · rw [h5]
    rfl

/-- Witness for C2 on the spec's scenario A (two two-field mappings), plus
a LazyRow input contributing only its row. -/
theorem claim_C2_witness :
    ((Table.mk [Row.mk [("a", .int 1), ("b", .int 2)], Row.mk [("a", .int 3), ("b", .int 4)],
        fxParentRow]
      [Column.ofKey "a", Column.ofKey "b"] .none Option.none).rows.length = 3)
    ∧ ((Table.mk [Row.mk [("a", .int 1), ("b", .int 2)], Row.mk [("a", .int 3), ("b", .int 4)],
        fxParentRow]
      [Column.ofKey "a", Column.ofKey "b"] .none Option.none).colnames = ["a", "b"]) := by
  have h := claim_C2
    [.mapping (.mk [("a", .int 1), ("b", .int 2)]),
     .mapping (.mk [("a", .int 3), ("b", .int 4)]),
     .lazyRow fxParentT fxParentRow]
    (Table.mk [Row.mk [("a", .int 1), ("b", .int 2)], Row.mk [("a", .int 3), ("b", .int 4)],
        fxParentRow]
      [Column.ofKey "a", Column.ofKey "b"] .none Option.none)
    (by intro i hi; fin_cases hi <;> rfl) rfl
  exact ⟨h.1, h.2.2⟩

/-! Claim C1: scope-chain lookup. -/

theorem chainTables_head (t : Table) (r : Row) :
    ∃ tl, chainTables t r = (t, r) :: tl := by
  rw [chainTables.eq_def]
  exact ⟨_, rfl⟩

theorem chainTables_default (t : Table) (r : Row)
    (h : ∀ t₁ r₁, r.get "__parent" ≠ .lazy t₁ r₁) : chainTables t r = [(t, r)] := by
  rw [chainTables.eq_def]
  simp only [List.cons.injEq, true_and]

theorem chainClosed_stuck (r : Row)
    (h1 : r.get "__parent" ≠ .none)
    (h2 : ∀ t₁ r₁, r.get "__parent" ≠ .lazy t₁ r₁) :
    chainClosed r = false := by
  rw [chainClosed.eq_def]
  split
  · rename_i hp
    exact absurd hp h1
  · rename_i t₁ r₁ hp
    exact absurd hp (h2 t₁ r₁)
  · rfl

theorem chain_lookup_found (k : String) (ta : Table) (ra : Row) (c : Column)
    (hcol : ta.get_column k = .ok (some c)) (pre : List (Table × Row)) :
    ∀ (t : Table) (r : Row) (post : List (Table × Row)),
      chainTables t r = pre ++ (ta, ra) :: post →
      (∀ p ∈ pre, p.1.get_column k = .ok Option.none) →
      lazyRowGetItem t r k = c.get_value ra := by
  induction pre with
  | nil =>
    intro t r post hchain hpre
    obtain ⟨tl, htl⟩ := chainTables_head t r
    rw [htl] at hchain
    simp only [List.nil_append] at hchain
    injection hchain with h1 h2
    injection h1 with hta hra
    subst hta
    subst hra
    exact lazyRowGetItem_found t r k c hcol
  | cons p pre ih =>
    intro t r post hchain hpre
    obtain ⟨tl, htl⟩ := chainTables_head t r
    rw [htl] at hchain
    injection hchain with h1 h2
    subst h1
    have hown := hpre (t, r) (List.mem_cons_self _ _)
    by_cases hlz : ∃ t₁ r₁, r.get "__parent" = .lazy t₁ r₁
    · obtain ⟨t₁, r₁, hg1⟩ := hlz
      have hct := chainTables_parent t r t₁ r₁ hg1
      rw [htl] at hct
      injection hct with _ hct2
      rw [lazyRowGetItem_parent t r k t₁ r₁ hown hg1]
      refine ih t₁ r₁ post ?_ (fun q hq => hpre q (List.mem_cons_of_mem _ hq))
      rw [hct2.symm]
      exact h2
    · have hct := chainTables_default t r (fun t₁ r₁ hc => hlz ⟨t₁, r₁, hc⟩)
      rw [htl] at hct
      injection hct with _ h2nil
      rw [h2nil] at h2
      exact absurd h2.symm (by simp)

theorem chain_lookup_missing (k : String) :
    ∀ n : Nat, ∀ r : Row, sizeOf r ≤ n → ∀ t : Table,
      (∀ p ∈ chainTables t r, p.1.get_column k = .ok Option.none) →
      chainClosed r = true →
      lazyRowGetItem t r k = .error (.keyNotFound k) := by
  intro n
  induction n with
  | zero =>
    intro r hle t hall hcl
    have := one_le_sizeOf_Row r
    omega
  | succ n ih =>
    intro r hle t hall hcl
    obtain ⟨tl, htl⟩ := chainTables_head t r
    have hown := hall (t, r) (by rw [htl]; exact List.mem_cons_self _ _)
    by_cases hlz : ∃ t₁ r₁, r.get "__parent" = .lazy t₁ r₁
    · obtain ⟨t₁, r₁, hg1⟩ := hlz
      rw [lazyRowGetItem_parent t r k t₁ r₁ hown hg1]
      have hsz := sizeOf_parent_row r t₁ r₁ hg1
      refine ih r₁ (by omega) t₁ ?_ ?_
      · intro p hp
        apply hall p
        rw [chainTables_parent t r t₁ r₁ hg1]
        exact List.mem_cons_of_mem _ hp
      · rw [chainClosed_lazy r t₁ r₁ hg1] at hcl
        exact hcl
    · cases hg : r.get "__parent" with
      | none => exact lazyRowGetItem_exhausted t r k hown hg
      | lazy t₁ r₁ => exact absurd ⟨t₁, r₁, hg⟩ hlz
      | int x =>
        have hf := chainClosed_stuck r (by rw [hg]; exact fun hx => Value.noConfusion hx)
          (fun t₁ r₁ hx => hlz ⟨t₁, r₁, hx⟩)
        rw [hcl] at hf
        cases hf
      | str x =>
        have hf := chainClosed_stuck r (by rw [hg]; exact fun hx => Value.noConfusion hx)
          (fun t₁ r₁ hx => hlz ⟨t₁, r₁, hx⟩)
        rw [hcl] at hf
        cases hf
      | table x =>
        have hf := chainClosed_stuck r (by rw [hg]; exact fun hx => Value.noConfusion hx)
          (fun t₁ r₁ hx => hlz ⟨t₁, r₁, hx⟩)
        rw [hcl] at hf
        cases hf
      | row x =>
        have hf := chainClosed_stuck r (by rw [hg]; exact fun hx => Value.noConfusion hx)
          (fun t₁ r₁ hx => hlz ⟨t₁, r₁, hx⟩)
        rw [hcl] at hf
        cases hf

/-- Claim C1: `LazyRow.__getitem__` walks the scope chain.  If the first
context of the chain whose table resolves the name (also through the
reserved current-column alias) is reached after contexts that do not, the
lookup returns that context's column value on that context's row; if no
table of a well-formed chain resolves the name, the lookup fails with
`KeyError` naming the field. -/
theorem claim_C1 :
    (∀ (pre : List (Table × Row)) (t : Table) (r : Row) (k : String)
        (ta : Table) (ra : Row) (c : Column) (post : List (Table × Row)),
      chainTables t r = pre ++ (ta, ra) :: post →
      (∀ p ∈ pre, p.1.get_column k = .ok Option.none) →
      ta.get_column k = .ok (some c) →
      lazyRowGetItem t r k = c.get_value ra)
    ∧ (∀ (t : Table) (r : Row) (k : String),
      (∀ p ∈ chainTables t r, p.1.get_column k = .ok Option.none) →
      chainClosed r = true →
      lazyRowGetItem t r k = .error (.keyNotFound k)) :=
  ⟨fun pre t r k ta ra c post h1 h2 h3 => chain_lookup_found k ta ra c h3 pre t r post h1 h2,
   fun t r k h1 h2 => chain_lookup_missing k (sizeOf r) r (Nat.le_refl _) t h1 h2⟩

/-- Witness for C1: on the parent/child fixture, the field `p` defined only
on the parent context resolves through the chain to `42`, and a field
defined nowhere fails with `KeyError`. -/
theorem claim_C1_witness :
    lazyRowGetItem fxChildT fxChildRow "p" = (Column.ofKey "p").get_value fxParentRow
    ∧ lazyRowGetItem fxChildT fxChildRow "zz" = .error (.keyNotFound "zz") :=
  ⟨claim_C1.1 [(fxChildT, fxChildRow)] fxChildT fxChildRow "p" fxParentT fxParentRow
      (Column.ofKey "p") []
      (by rw [chainTables_parent fxChildT fxChildRow fxParentT fxParentRow rfl,
              chainTables_none fxParentT fxParentRow rfl]
          rfl)
      (by intro p hp
          rw [List.mem_singleton] at hp
          subst hp
          rfl)
      rfl,
   claim_C1.2 fxChildT fxChildRow "zz"
      (by intro p hp
          rw [chainTables_parent fxChildT fxChildRow fxParentT fxParentRow rfl,
              chainTables_none fxParentT fxParentRow rfl] at hp
          simp only [List.mem_cons, List.not_mem_nil, or_false] at hp
          rcases hp with hp | hp
          · subst hp
            rfl
          · subst hp
            rfl)
      (by rw [chainClosed_lazy fxChildRow fxParentT fxParentRow rfl]
          exact chainClosed_none fxParentRow rfl)⟩

end Aipl
